import Mathlib

/-!
Verification of the caddy2-zlog middleware (handler.go, zlog.go) against its
natural-language specification.  Go strings are modelled as byte lists
(`Bytes`); the Go standard-library helpers used by the code
(`strings.Split`, `strings.Cut`, `url.ParseQuery`, `url.Values.Encode`,
`strconv.Parse*`) are translated from their Go sources.  External
collaborators (the MD5 hash of zliu.org/goutil, `strconv.ParseFloat`, the
xid generator) are taken as function parameters.  Repository files that are
referenced from zlog.go but absent from the source tree (chain.go's
`Chain`/`NewChain`/`Append`/`Then` and writer.go's `respProxyWriter`) are
modelled from the specification; each such definition says so in its doc
comment.
-/

namespace Zlog

/-- Go strings are byte sequences; bytes are naturals below 256. -/
abbrev Bytes := List Nat

/-- Convenience: the bytes of an ASCII string literal, for concrete inputs. -/
def strBytes (s : String) : Bytes := s.data.map Char.toNat

/-- The separator `"\r\n\r\n"` used by `hashPostRequest`. -/
def crlf2 : Bytes := [13, 10, 13, 10]

/-- The literal prefix produced by `fmt.Sprintf("md5-%s", k)`. -/
def md5Pre : Bytes := [109, 100, 53, 45]

/-- Embedding of `strings.Split(req, "\r\n\r\n")`: leftmost-first,
non-overlapping occurrences of the four-byte separator; `acc` holds the
reversed bytes of the current chunk. -/
def splitCRLFCRLF : Bytes → Bytes → List Bytes
  | [], acc => [acc.reverse]
  | 13 :: 10 :: 13 :: 10 :: rest, acc => acc.reverse :: splitCRLFCRLF rest []
  | c :: rest, acc => splitCRLFCRLF rest (c :: acc)

/-- Embedding of `strings.Cut(s, string(b))` for a one-byte separator:
returns the part before the first occurrence and the part after it (the
whole string and `[]` when the byte does not occur, matching Go's
`(s, "", false)`). -/
def cutByte (b : Nat) : Bytes → Bytes × Bytes
  | [] => ([], [])
  | c :: rest =>
    if c = b then ([], rest)
    else
      let p := cutByte b rest
      (c :: p.1, p.2)

/-- Splitting on a one-byte separator, keeping empty chunks; the
`url.ParseQuery` loop of repeated `strings.Cut` on `'&'` visits exactly
these chunks. -/
def splitByte (b : Nat) : Bytes → List Bytes
  | [] => [[]]
  | c :: rest =>
    if c = b then [] :: splitByte b rest
    else
      match splitByte b rest with
      | [] => [[c]]
      | p :: ps => (c :: p) :: ps

/-- Embedding of net/url's `unhex`/`ishex`: the value of a hex digit. -/
def unhex (c : Nat) : Option Nat :=
  if 48 ≤ c ∧ c ≤ 57 then some (c - 48)
  else if 97 ≤ c ∧ c ≤ 102 then some (c - 97 + 10)
  else if 65 ≤ c ∧ c ≤ 70 then some (c - 65 + 10)
  else none

/-- Embedding of `url.QueryUnescape`: `%XX` decodes (error if not followed
by two hex digits), `'+'` becomes space, everything else passes through. -/
def queryUnescape : Bytes → Option Bytes
  | [] => some []
  | c :: tl =>
    if c = 37 then
      match tl with
      | h1 :: h2 :: tl2 =>
        match unhex h1, unhex h2, queryUnescape tl2 with
        | some d1, some d2, some r => some ((d1 * 16 + d2) :: r)
        | _, _, _ => none
      | _ => none
    else if c = 43 then (queryUnescape tl).map (fun r => 32 :: r)
    else (queryUnescape tl).map (fun r => c :: r)

/-- Embedding of Go's `url.Values`: an association list from a key to its
list of values, keys in first-occurrence order.  (Go's map iteration order
is unspecified; this embedding fixes insertion order, which is also the
order `hashPostRequest`'s loop visits keys in.) -/
abbrev Values := List (Bytes × List Bytes)

/-- Appending a value for a key, as `m[key] = append(m[key], value)` does:
extend the key's value list, or add the key at the end. -/
def addValue : Values → Bytes → Bytes → Values
  | [], k, v => [(k, [v])]
  | p :: rest, k, v =>
    if p.1 = k then (p.1, p.2 ++ [v]) :: rest
    else p :: addValue rest k v

/-- The value list stored for a key (`[]` when absent). -/
def lookupVals : Values → Bytes → List Bytes
  | [], _ => []
  | p :: rest, k => if p.1 = k then p.2 else lookupVals rest k

/-- Embedding of `url.Values.Get`: the first stored value, `""` if none. -/
def valuesGet (vals : Values) (k : Bytes) : Bytes := (lookupVals vals k).headD []

/-- Embedding of `url.Values.Set`: replace the key's values with the
singleton, or add the key at the end. -/
def valuesSet : Values → Bytes → Bytes → Values
  | [], k, v => [(k, [v])]
  | p :: rest, k, v =>
    if p.1 = k then (k, [v]) :: rest
    else p :: valuesSet rest k v

/-- The keys of a `Values`, in storage order (what `for k := range m`
visits, fixed here to insertion order). -/
def keyList (vals : Values) : List Bytes := vals.map Prod.fst

/-- One iteration of the `url.ParseQuery` loop on the chunk between two
`'&'` separators: a semicolon is an error, an empty chunk is skipped,
otherwise cut at the first `'='` and unescape key and value.  Go records
the first error and keeps looping, and the only caller checks `err != nil`,
so an error anywhere makes the whole parse fail. -/
def parsePairs : List Bytes → Values → Option Values
  | [], acc => some acc
  | chunk :: rest, acc =>
    if 59 ∈ chunk then none
    else if chunk = [] then parsePairs rest acc
    else
      let kv := cutByte 61 chunk
      match queryUnescape kv.1, queryUnescape kv.2 with
      | some k, some v => parsePairs rest (addValue acc k v)
      | _, _ => none

/-- Embedding of `url.ParseQuery` (Go 1.17+ semantics: `';'` is an error):
`none` exactly when Go returns a non-nil error. -/
def parseQuery (s : Bytes) : Option Values := parsePairs (splitByte 38 s) []

/-- Byte-wise lexicographic order on byte strings, as `sort.Strings`
compares Go strings. -/
def bytesLeB : Bytes → Bytes → Bool
  | [], _ => true
  | _ :: _, [] => false
  | a :: as, b :: bs =>
    if a < b then true
    else if b < a then false
    else bytesLeB as bs

/-- The ordering relation used to sort keys in `url.Values.Encode`. -/
def bytesLe (a b : Bytes) : Prop := bytesLeB a b = true

instance : DecidableRel bytesLe := fun a b =>
  inferInstanceAs (Decidable (bytesLeB a b = true))

/-- Unreserved bytes that `url.QueryEscape` leaves as-is:
alphanumerics and `- _ . ~`. -/
def isUnreservedByte (c : Nat) : Bool :=
  (decide (48 ≤ c) && decide (c ≤ 57)) ||
  (decide (65 ≤ c) && decide (c ≤ 90)) ||
  (decide (97 ≤ c) && decide (c ≤ 122)) ||
  (c == 45) || (c == 95) || (c == 46) || (c == 126)

/-- Uppercase hex digit byte for a value below 16. -/
def hexUpper (d : Nat) : Nat := if d < 10 then 48 + d else 55 + d

/-- How `url.QueryEscape` renders one byte: unreserved bytes unchanged,
space as `'+'`, everything else as `%XX`. -/
def escapeByte (c : Nat) : Bytes :=
  if isUnreservedByte c then [c]
  else if c = 32 then [43]
  else [37, hexUpper (c / 16), hexUpper (c % 16)]

/-- Embedding of `url.QueryEscape`. -/
def queryEscape (s : Bytes) : Bytes := s.flatMap escapeByte

/-- Joining encoded `key=value` pairs with `'&'`, as `Encode`'s builder
loop does (every pair is nonempty, so a separator goes between all). -/
def joinAmp : List Bytes → Bytes
  | [] => []
  | [x] => x
  | x :: y :: rest => x ++ 38 :: joinAmp (y :: rest)

/-- The sorted key order `url.Values.Encode` emits (`sort.Strings`). -/
def sortedKeys (vals : Values) : List Bytes :=
  List.insertionSort bytesLe (keyList vals)

/-- Embedding of `url.Values.Encode`: keys sorted, each value
percent-escaped and joined. -/
def encodeValues (vals : Values) : Bytes :=
  joinAmp ((sortedKeys vals).flatMap
    (fun k => (lookupVals vals k).map (fun v => queryEscape k ++ 61 :: queryEscape v)))

/-- One line written to the redaction sink (`c.hashStore`):
`{"field": k, "md5": h, "content": v}`. -/
structure SinkEntry where
  field : Bytes
  md5 : Bytes
  content : Bytes
deriving DecidableEq, Repr

/-- One iteration of `hashPostRequest`'s loop over the parsed form's keys:
an oversized first value (more than 1000 bytes) is replaced under key
`md5-k` by its hash and recorded in the sink when configured; otherwise the
value passes through under its own key. -/
def redactStep (md5fn : Bytes → Bytes) (sinkConfigured : Bool) (pd : Values)
    (acc : Values × List SinkEntry) (k : Bytes) : Values × List SinkEntry :=
  let v := valuesGet pd k
  if 1000 < v.length then
    let h := md5fn v
    (valuesSet acc.1 (md5Pre ++ k) h,
     acc.2 ++ (if sinkConfigured then [⟨k, h, v⟩] else []))
  else
    (valuesSet acc.1 k v, acc.2)

/-- The whole redaction loop of `hashPostRequest`, producing the rebuilt
`url.Values` and the sink lines written, in key order. -/
def redactFold (md5fn : Bytes → Bytes) (sinkConfigured : Bool) (pd : Values) :
    Values × List SinkEntry :=
  (keyList pd).foldl (redactStep md5fn sinkConfigured pd) ([], [])

/-- Embedding of `hashPostRequest` (handler.go): split the dump on the
blank line; if it is not exactly two parts, or the body does not parse as a
form, return the input unchanged with no sink writes; otherwise rebuild the
body from the redaction loop and re-encode it.  The second component is the
list of lines written to `c.hashStore`. -/
def hashPostRequest (md5fn : Bytes → Bytes) (sinkConfigured : Bool) (req : Bytes) :
    Bytes × List SinkEntry :=
  let parts := splitCRLFCRLF req []
  if parts.length = 2 then
    match parseQuery (parts.getD 1 []) with
    | none => (req, [])
    | some postData =>
      let r := redactFold md5fn sinkConfigured postData
      (parts.getD 0 [] ++ crlf2 ++ encodeValues r.1, r.2)
  else (req, [])

/-- Embedding of the message choice in `DumpRequestHandler`: the raw dump
when no hash store is configured, otherwise `hashPostRequest` applied to it
(inside which the sink is non-nil). -/
def dumpRequestMsg (md5fn : Bytes → Bytes) (hashStoreConfigured : Bool) (dump : Bytes) :
    Bytes × List SinkEntry :=
  if hashStoreConfigured then hashPostRequest md5fn true dump else (dump, [])

/-- A byte string with no carriage return contains no blank-line separator,
so `strings.Split` keeps it in one piece. -/
theorem splitCRLFCRLF_no13 (s : Bytes) (h : 13 ∉ s) :
    ∀ acc, splitCRLFCRLF s acc = [acc.reverse ++ s] := by
  induction s with
  | nil => intro acc; simp [splitCRLFCRLF]
  | cons c rest ih =>
    intro acc
    have hc : c ≠ 13 := by intro hh; exact h (by simp [hh])
    rw [splitCRLFCRLF.eq_3 acc c rest (fun _ h13 _ => hc h13),
      ih (fun hm => h (List.mem_cons_of_mem _ hm)) (c :: acc)]
    simp

/-- Unescaping a byte string free of `%` and `+` returns it unchanged. -/
theorem queryUnescape_plain (s : Bytes) (h : ∀ c ∈ s, c ≠ 37 ∧ c ≠ 43) :
    queryUnescape s = some s := by
  induction s with
  | nil => rfl
  | cons c tl ih =>
    have hc := h c (by simp)
    have htl : queryUnescape tl = some tl := ih (fun x hx => h x (List.mem_cons_of_mem _ hx))
    rcases tl with _ | ⟨h1, _ | ⟨h2, tl2⟩⟩
    · rw [queryUnescape.eq_3 c [] (by intro _ _ _ hh; simp at hh),
        if_neg hc.1, if_neg hc.2, htl]
      rfl
    · rw [queryUnescape.eq_3 c [h1] (by intro _ _ _ hh; simp at hh),
        if_neg hc.1, if_neg hc.2, htl]
      rfl
    · rw [queryUnescape.eq_2, if_neg hc.1, if_neg hc.2, htl]
      rfl

/-- Splitting on a byte that does not occur yields the single chunk. -/
theorem splitByte_not_mem (b : Nat) (s : Bytes) (h : b ∉ s) : splitByte b s = [s] := by
  induction s with
  | nil => rfl
  | cons c rest ih =>
    have hc : c ≠ b := by intro hh; exact h (by simp [hh])
    rw [splitByte, if_neg hc, ih (fun hm => h (List.mem_cons_of_mem _ hm))]

/-- Splitting peels off a separator-free chunk before the first separator. -/
theorem splitByte_cons_append (b : Nat) (xs ys : Bytes) (h : b ∉ xs) :
    splitByte b (xs ++ b :: ys) = xs :: splitByte b ys := by
  induction xs with
  | nil => simp [splitByte]
  | cons x xs' ih =>
    have hx : x ≠ b := by intro hh; exact h (by simp [hh])
    rw [List.cons_append, splitByte, if_neg hx, ih (fun hm => h (List.mem_cons_of_mem _ hm))]

/-- The key under which the redaction loop stores a field: `md5-k` for an
oversized first value, `k` otherwise. -/
def redactKey (pd : Values) (k : Bytes) : Bytes :=
  if 1000 < (valuesGet pd k).length then md5Pre ++ k else k

/-- The value the redaction loop stores for a field: the hash of an
oversized first value, the value itself otherwise. -/
def redactValue (md5fn : Bytes → Bytes) (pd : Values) (k : Bytes) : Bytes :=
  if 1000 < (valuesGet pd k).length then md5fn (valuesGet pd k) else valuesGet pd k

/-- The sink lines one loop iteration writes: one entry for an oversized
field when the sink is configured, nothing otherwise. -/
def redactSink (md5fn : Bytes → Bytes) (sinkConfigured : Bool) (pd : Values) (k : Bytes) :
    List SinkEntry :=
  if 1000 < (valuesGet pd k).length then
    if sinkConfigured then [⟨k, md5fn (valuesGet pd k), valuesGet pd k⟩] else []
  else []

theorem redactStep_eq (md5fn : Bytes → Bytes) (cfg : Bool) (pd : Values)
    (acc : Values × List SinkEntry) (k : Bytes) :
    redactStep md5fn cfg pd acc k =
      (valuesSet acc.1 (redactKey pd k) (redactValue md5fn pd k),
       acc.2 ++ redactSink md5fn cfg pd k) := by
  by_cases h : 1000 < (valuesGet pd k).length <;>
    simp [redactStep, redactKey, redactValue, redactSink, h]

theorem lookupVals_valuesSet_self (vals : Values) (k v : Bytes) :
    lookupVals (valuesSet vals k v) k = [v] := by
  induction vals with
  | nil => simp [valuesSet, lookupVals]
  | cons p rest ih =>
    by_cases h : p.1 = k
    · simp [valuesSet, h, lookupVals]
    · simp [valuesSet, h, lookupVals, ih]

theorem lookupVals_valuesSet_other (vals : Values) (k k' v : Bytes) (h : k' ≠ k) :
    lookupVals (valuesSet vals k' v) k = lookupVals vals k := by
  induction vals with
  | nil => simp [valuesSet, lookupVals, h]
  | cons p rest ih =>
    by_cases hp : p.1 = k'
    · simp [valuesSet, hp, lookupVals, h, hp ▸ h]
    · simp [valuesSet, hp, lookupVals, ih]

/-- A key present in the lookup table is in the key list. -/
theorem mem_keyList_of_lookupVals_ne_nil (vals : Values) (k : Bytes)
    (h : lookupVals vals k ≠ []) : k ∈ keyList vals := by
  induction vals with
  | nil => simp [lookupVals] at h
  | cons p rest ih =>
    by_cases hp : p.1 = k
    · simp [keyList, hp]
    · rw [lookupVals, if_neg hp] at h
      simpa [keyList] using Or.inr (by simpa [keyList] using ih h)

/-- Iterations for keys that never write to `K` leave `K`'s binding alone. -/
theorem lookup_foldl_redactStep_untouched (md5fn : Bytes → Bytes) (cfg : Bool) (pd : Values)
    (ks : List Bytes) (K : Bytes) (h : ∀ k ∈ ks, redactKey pd k ≠ K) :
    ∀ init : Values × List SinkEntry,
      lookupVals (ks.foldl (redactStep md5fn cfg pd) init).1 K = lookupVals init.1 K := by
  induction ks with
  | nil => intro init; rfl
  | cons a tl ih =>
    intro init
    rw [List.foldl_cons, ih (fun k hk => h k (List.mem_cons_of_mem _ hk)), redactStep_eq]
    exact lookupVals_valuesSet_other _ _ _ _ (h a (by simp))

/-- After the whole loop, a key whose writer is unique among the visited
keys is bound to exactly the value its own iteration wrote. -/
theorem lookup_foldl_redactStep (md5fn : Bytes → Bytes) (cfg : Bool) (pd : Values)
    (ks : List Bytes) (k : Bytes) (hk : k ∈ ks)
    (hinj : ∀ k' ∈ ks, redactKey pd k' = redactKey pd k → k' = k) :
    ∀ init : Values × List SinkEntry,
      lookupVals (ks.foldl (redactStep md5fn cfg pd) init).1 (redactKey pd k) =
        [redactValue md5fn pd k] := by
  induction ks with
  | nil => cases hk
  | cons a tl ih =>
    intro init
    rw [List.foldl_cons]
    by_cases hmem : k ∈ tl
    · exact ih hmem (fun k' hk' => hinj k' (List.mem_cons_of_mem _ hk')) _
    · have hak : a = k := by
        rcases List.mem_cons.1 hk with h | h
        · exact h.symm
        · exact absurd h hmem
      subst hak
      rw [lookup_foldl_redactStep_untouched md5fn cfg pd tl (redactKey pd a)
          (fun k' hk' heq => hmem ((hinj k' (List.mem_cons_of_mem _ hk') heq) ▸ hk')),
        redactStep_eq]
      exact lookupVals_valuesSet_self _ _ _

/-- The sink lines of the whole loop are the per-key lines in key order. -/
theorem snd_foldl_redactStep (md5fn : Bytes → Bytes) (cfg : Bool) (pd : Values)
    (ks : List Bytes) :
    ∀ init : Values × List SinkEntry,
      (ks.foldl (redactStep md5fn cfg pd) init).2 =
        init.2 ++ ks.flatMap (redactSink md5fn cfg pd) := by
  induction ks with
  | nil => intro init; simp
  | cons a tl ih =>
    intro init
    rw [List.foldl_cons, ih, redactStep_eq]
    simp

theorem field_of_mem_redactSink (md5fn : Bytes → Bytes) (cfg : Bool) (pd : Values)
    (k : Bytes) (e : SinkEntry) (he : e ∈ redactSink md5fn cfg pd k) : e.field = k := by
  unfold redactSink at he
  split_ifs at he <;> simp_all

/-- Filtering the sink lines of distinct keys down to one key keeps exactly
that key's lines. -/
theorem filter_flatMap_redactSink (md5fn : Bytes → Bytes) (cfg : Bool) (pd : Values)
    (ks : List Bytes) (k : Bytes) (hnd : ks.Nodup) (hk : k ∈ ks) :
    (ks.flatMap (redactSink md5fn cfg pd)).filter (fun e => decide (e.field = k)) =
      redactSink md5fn cfg pd k := by
  induction ks with
  | nil => cases hk
  | cons a tl ih =>
    rw [List.flatMap_cons, List.filter_append]
    rcases List.mem_cons.1 hk with hak | hmem
    · subst hak
      have h1 : (redactSink md5fn cfg pd k).filter (fun e => decide (e.field = k)) =
          redactSink md5fn cfg pd k :=
        List.filter_eq_self.2 (fun e he => by
          simp [field_of_mem_redactSink md5fn cfg pd k e he])
      have h2 : (tl.flatMap (redactSink md5fn cfg pd)).filter
          (fun e => decide (e.field = k)) = [] :=
        List.filter_eq_nil_iff.2 (fun e he => by
          rcases List.mem_flatMap.1 he with ⟨k', hk', he'⟩
          have : e.field = k' := field_of_mem_redactSink md5fn cfg pd k' e he'
          have hne : k' ≠ k := fun hh => (List.nodup_cons.1 hnd).1 (hh ▸ hk')
          simp [this, hne])
      rw [h1, h2, List.append_nil]
    · have hne : a ≠ k := fun hh => (List.nodup_cons.1 hnd).1 (hh ▸ hmem)
      have h1 : (redactSink md5fn cfg pd a).filter (fun e => decide (e.field = k)) = [] :=
        List.filter_eq_nil_iff.2 (fun e he => by
          have : e.field = a := field_of_mem_redactSink md5fn cfg pd a e he
          simp [this, hne])
      rw [h1, List.nil_append, ih (List.nodup_cons.1 hnd).2 hmem]

/-- Keys after an `addValue` are the old keys, possibly with the new key at
the end. -/
theorem mem_keyList_addValue (vals : Values) (k v x : Bytes)
    (hx : x ∈ keyList (addValue vals k v)) : x ∈ keyList vals ∨ x = k := by
  induction vals with
  | nil => simpa [addValue, keyList] using hx
  | cons p rest ih =>
    by_cases hp : p.1 = k
    · rw [addValue, if_pos hp] at hx
      exact Or.inl (by simpa [keyList] using hx)
    · rw [addValue, if_neg hp] at hx
      rcases (by simpa [keyList] using hx : x = p.1 ∨ x ∈ keyList (addValue rest k v)) with h | h
      · exact Or.inl (by simp [keyList, h])
      · rcases ih h with h' | h'
        · exact Or.inl (by simp [keyList]; exact Or.inr (by simpa [keyList] using h'))
        · exact Or.inr h'

/-- `addValue` never duplicates a key. -/
theorem keyList_addValue_nodup (vals : Values) (k v : Bytes)
    (h : (keyList vals).Nodup) : (keyList (addValue vals k v)).Nodup := by
  induction vals with
  | nil => simp [addValue, keyList]
  | cons p rest ih =>
    rw [keyList, List.map_cons, List.nodup_cons] at h
    by_cases hp : p.1 = k
    · rw [addValue, if_pos hp]
      simpa [keyList] using (by simpa [keyList] using And.intro h.1 h.2)
    · rw [addValue, if_neg hp]
      rw [keyList, List.map_cons, List.nodup_cons]
      refine ⟨fun hmem => ?_, ih h.2⟩
      rcases mem_keyList_addValue rest k v p.1 (by simpa [keyList] using hmem) with h' | h'
      · exact h.1 (by simpa [keyList] using h')
      · exact hp h'

/-- The parse loop keeps the key list duplicate-free. -/
theorem parsePairs_keyList_nodup (chunks : List Bytes) :
    ∀ acc out : Values, (keyList acc).Nodup → parsePairs chunks acc = some out →
      (keyList out).Nodup := by
  induction chunks with
  | nil =>
    intro acc out hacc hout
    rw [parsePairs] at hout
    cases hout
    exact hacc
  | cons chunk rest ih =>
    intro acc out hacc hout
    rw [parsePairs] at hout
    by_cases h59 : 59 ∈ chunk
    · rw [if_pos h59] at hout; cases hout
    · rw [if_neg h59] at hout
      by_cases hnil : chunk = []
      · rw [if_pos hnil] at hout
        exact ih acc out hacc hout
      · rw [if_neg hnil] at hout
        rcases hqk : queryUnescape (cutByte 61 chunk).1 with _ | k <;>
          rcases hqv : queryUnescape (cutByte 61 chunk).2 with _ | v <;>
            simp only [hqk, hqv] at hout
        · cases hout
        · cases hout
        · cases hout
        · exact ih _ out (keyList_addValue_nodup acc k v hacc) hout

/-- Keys of a successfully parsed form are duplicate-free. -/
theorem parseQuery_keyList_nodup (s : Bytes) (pd : Values)
    (h : parseQuery s = some pd) : (keyList pd).Nodup :=
  parsePairs_keyList_nodup (splitByte 38 s) [] pd (by simp [keyList]) h

/-- Under the no-collision proviso, distinct keys write to distinct output
keys. -/
theorem redactKey_inj (pd : Values)
    (hno : ∀ k1 ∈ keyList pd, 1000 < (valuesGet pd k1).length →
      ∀ k2 ∈ keyList pd, ¬ 1000 < (valuesGet pd k2).length → k2 ≠ md5Pre ++ k1) :
    ∀ k1 ∈ keyList pd, ∀ k2 ∈ keyList pd,
      redactKey pd k1 = redactKey pd k2 → k1 = k2 := by
  intro k1 h1 k2 h2 heq
  unfold redactKey at heq
  by_cases o1 : 1000 < (valuesGet pd k1).length <;>
    by_cases o2 : 1000 < (valuesGet pd k2).length
  · rw [if_pos o1, if_pos o2] at heq
    simpa using heq
  · rw [if_pos o1, if_neg o2] at heq
    exact absurd heq.symm (hno k1 h1 o1 k2 h2 o2)
  · rw [if_neg o1, if_pos o2] at heq
    exact absurd heq (hno k2 h2 o2 k1 h1 o1)
  · rw [if_neg o1, if_neg o2] at heq
    exact heq

/-- An element of a joined list is a contiguous segment of the join. -/
theorem joinAmp_segment (l : List Bytes) (x : Bytes) (hx : x ∈ l) :
    ∃ pre post, joinAmp l = pre ++ x ++ post := by
  induction l with
  | nil => cases hx
  | cons a tl ih =>
    rcases List.mem_cons.1 hx with h | h
    · subst h
      cases tl with
      | nil => exact ⟨[], [], by simp [joinAmp]⟩
      | cons b tl' => exact ⟨[], 38 :: joinAmp (b :: tl'), by simp [joinAmp]⟩
    · rcases ih h with ⟨pre, post, hpp⟩
      cases tl with
      | nil => cases h
      | cons b tl' =>
        exact ⟨a ++ 38 :: pre, post, by simp [joinAmp, hpp]⟩

/-- C7: a dumped request that does not split into exactly two parts around
the blank-line separator, or whose body part does not parse as
form-encoded data, passes through `hashPostRequest` byte-for-byte
unmodified, with no sink writes; the embedding is a total function, so no
error is ever raised. -/
theorem c7_malformed_passthrough (md5fn : Bytes → Bytes) (cfg : Bool) (req : Bytes)
    (h : (splitCRLFCRLF req []).length ≠ 2 ∨
         parseQuery ((splitCRLFCRLF req []).getD 1 []) = none) :
    hashPostRequest md5fn cfg req = (req, []) := by
  rcases h with h | h
  · simp [hashPostRequest, h]
  · by_cases h2 : (splitCRLFCRLF req []).length = 2
    · obtain ⟨a, b, hab⟩ := List.length_eq_two.1 h2
      rw [hab] at h
      simp at h
      simp [hashPostRequest, hab, h]
    · simp [hashPostRequest, h2]

/-- Witness for C7: the dump `"abc"` has no blank-line separator and passes
through unchanged with no sink writes. -/
theorem c7_malformed_passthrough_witness :
    (splitCRLFCRLF (strBytes "abc") []).length ≠ 2 ∧
    hashPostRequest (fun _ => strBytes "0") true (strBytes "abc") = (strBytes "abc", []) :=
  ⟨by decide, c7_malformed_passthrough _ true _ (Or.inl (by decide))⟩

/-- C1 (amended): for a dumped POST request whose body parses as a form,
provided no field with a value of at most 1000 bytes is named `md5-k` for
an oversized field `k` of the same form (the proviso the counterexample
`c1_redaction_cex` forces), every oversized field is logged as `md5-k`
bound to the hash of its first value — the `md5-k=<hash>` pair appears as a
contiguous segment of the dump — and exactly one sink entry
`{field, md5, content}` is written for it, while every field at or below
the threshold is logged under its own name with its first value and
produces no sink entry. -/
theorem c1_redaction_amended (md5fn : Bytes → Bytes) (req hd bd : Bytes)
    (pd : Values) (k : Bytes)
    (hsplit : splitCRLFCRLF req [] = [hd, bd])
    (hparse : parseQuery bd = some pd)
    (hno : ∀ k1 ∈ keyList pd, 1000 < (valuesGet pd k1).length →
      ∀ k2 ∈ keyList pd, ¬ 1000 < (valuesGet pd k2).length → k2 ≠ md5Pre ++ k1)
    (hk : k ∈ keyList pd) :
    hashPostRequest md5fn true req =
      (hd ++ crlf2 ++ encodeValues (redactFold md5fn true pd).1,
       (redactFold md5fn true pd).2) ∧
    (1000 < (valuesGet pd k).length →
      lookupVals (redactFold md5fn true pd).1 (md5Pre ++ k) = [md5fn (valuesGet pd k)] ∧
      (∃ pre post, (hashPostRequest md5fn true req).1 =
        pre ++ (queryEscape (md5Pre ++ k) ++ 61 :: queryEscape (md5fn (valuesGet pd k))) ++ post) ∧
      (redactFold md5fn true pd).2.filter (fun e => decide (e.field = k)) =
        [⟨k, md5fn (valuesGet pd k), valuesGet pd k⟩]) ∧
    (¬ 1000 < (valuesGet pd k).length →
      lookupVals (redactFold md5fn true pd).1 k = [valuesGet pd k] ∧
      (redactFold md5fn true pd).2.filter (fun e => decide (e.field = k)) = []) := by
  have hinj := redactKey_inj pd hno
  have hnd := parseQuery_keyList_nodup bd pd hparse
  have heq : hashPostRequest md5fn true req =
      (hd ++ crlf2 ++ encodeValues (redactFold md5fn true pd).1,
       (redactFold md5fn true pd).2) := by
    simp [hashPostRequest, hsplit, hparse]
  have hlook : lookupVals (redactFold md5fn true pd).1 (redactKey pd k) =
      [redactValue md5fn pd k] :=
    lookup_foldl_redactStep md5fn true pd (keyList pd) k hk
      (fun k' hk' h' => hinj k' hk' k hk h') ([], [])
  have hsnd : (redactFold md5fn true pd).2 =
      (keyList pd).flatMap (redactSink md5fn true pd) := by
    rw [redactFold, snd_foldl_redactStep]
    simp
  have hfil : (redactFold md5fn true pd).2.filter (fun e => decide (e.field = k)) =
      redactSink md5fn true pd k := by
    rw [hsnd, filter_flatMap_redactSink md5fn true pd (keyList pd) k hnd hk]
  refine ⟨heq, fun ho => ?_, fun ho => ?_⟩
  · have hrk : redactKey pd k = md5Pre ++ k := by rw [redactKey, if_pos ho]
    have hrv : redactValue md5fn pd k = md5fn (valuesGet pd k) := by
      rw [redactValue, if_pos ho]
    have hlk : lookupVals (redactFold md5fn true pd).1 (md5Pre ++ k) =
        [md5fn (valuesGet pd k)] := by
      rw [hrk, hrv] at hlook
      exact hlook
    refine ⟨hlk, ?_, by rw [hfil]; simp [redactSink, ho]⟩
    have hmemK : (md5Pre ++ k) ∈ keyList (redactFold md5fn true pd).1 :=
      mem_keyList_of_lookupVals_ne_nil _ _ (by rw [hlk]; simp)
    have hmemS : (md5Pre ++ k) ∈ sortedKeys (redactFold md5fn true pd).1 := by
      rw [sortedKeys]
      exact (List.mem_insertionSort bytesLe).2 hmemK
    have hpair : (queryEscape (md5Pre ++ k) ++ 61 :: queryEscape (md5fn (valuesGet pd k))) ∈
        (sortedKeys (redactFold md5fn true pd).1).flatMap
          (fun k' => (lookupVals (redactFold md5fn true pd).1 k').map
            (fun v => queryEscape k' ++ 61 :: queryEscape v)) := by
      refine List.mem_flatMap.2 ⟨md5Pre ++ k, hmemS, ?_⟩
      rw [hlk]
      simp
    rcases joinAmp_segment _ _ hpair with ⟨pre, post, hseg⟩
    refine ⟨hd ++ crlf2 ++ pre, post, ?_⟩
    rw [heq]
    show hd ++ crlf2 ++ encodeValues (redactFold md5fn true pd).1 = _
    rw [encodeValues, hseg]
    simp
  · have hrk : redactKey pd k = k := by rw [redactKey, if_neg ho]
    have hrv : redactValue md5fn pd k = valuesGet pd k := by
      rw [redactValue, if_neg ho]
    constructor
    · rw [hrk, hrv] at hlook
      exact hlook
    · rw [hfil, redactSink, if_neg ho]

/-- One parse-loop step on a well-formed chunk adds its decoded pair. -/
theorem parsePairs_cons_ok (chunk : Bytes) (rest : List Bytes) (acc : Values)
    (k v : Bytes) (h59 : 59 ∉ chunk) (hne : chunk ≠ [])
    (hk : queryUnescape (cutByte 61 chunk).1 = some k)
    (hv : queryUnescape (cutByte 61 chunk).2 = some v) :
    parsePairs (chunk :: rest) acc = parsePairs rest (addValue acc k v) := by
  rw [parsePairs, if_neg h59, if_neg hne]
  simp only [hk, hv]

/-- A 1001-byte value (1001 repetitions of `'b'`), above the 1000-byte
redaction threshold. -/
def bigv : Bytes := List.replicate 1001 98

theorem bigv_mem (c : Nat) (hc : c ∈ bigv) : c = 98 :=
  List.eq_of_mem_replicate (by rwa [bigv] at hc)

theorem bigv_length : bigv.length = 1001 := by
  rw [bigv, List.length_replicate]

theorem bigv_plain : ∀ c ∈ bigv, c ≠ 37 ∧ c ≠ 43 := by
  intro c hc
  rw [bigv_mem c hc]
  exact ⟨by decide, by decide⟩

/-- A fixed stand-in for the external MD5 collaborator, used by the
concrete witnesses (`"HASH"`). -/
def md5c : Bytes → Bytes := fun _ => [72, 65, 83, 72]

/-- Witness body `"a=1&b=<1001 bytes>"`. -/
def c1WitBd : Bytes := [97, 61, 49] ++ 38 :: ([98, 61] ++ bigv)

/-- Witness dump `"H\r\n\r\na=1&b=<1001 bytes>"`. -/
def c1WitReq : Bytes := [72] ++ crlf2 ++ c1WitBd

/-- The parsed form of the witness body. -/
def c1WitPd : Values := [([97], [[49]]), ([98], [bigv])]

theorem mem_c1WitBd (c : Nat) (hc : c ∈ c1WitBd) :
    c = 97 ∨ c = 61 ∨ c = 49 ∨ c = 38 ∨ c = 98 := by
  rw [c1WitBd] at hc
  rcases List.mem_append.1 hc with h | h
  · simp at h; tauto
  · rcases List.mem_cons.1 h with h' | h'
    · tauto
    · rcases List.mem_append.1 h' with h2 | h2
      · simp at h2; tauto
      · exact Or.inr (Or.inr (Or.inr (Or.inr (bigv_mem c h2))))

theorem mem_chunk_b (c : Nat) (hc : c ∈ [98, 61] ++ bigv) :
    c = 98 ∨ c = 61 := by
  rcases List.mem_append.1 hc with h | h
  · simp at h; tauto
  · exact Or.inl (bigv_mem c h)

theorem c1Wit_split : splitCRLFCRLF c1WitReq [] = [[72], c1WitBd] := by
  show splitCRLFCRLF (72 :: 13 :: 10 :: 13 :: 10 :: c1WitBd) [] = [[72], c1WitBd]
  rw [splitCRLFCRLF.eq_3 [] 72 _ (fun _ hh _ => absurd hh (by decide)),
    splitCRLFCRLF.eq_2,
    splitCRLFCRLF_no13 c1WitBd (fun hm => by rcases mem_c1WitBd 13 hm with h|h|h|h|h <;> omega) []]
  simp

theorem c1Wit_parse : parseQuery c1WitBd = some c1WitPd := by
  have hchunks : splitByte 38 c1WitBd = [[97, 61, 49], [98, 61] ++ bigv] := by
    rw [c1WitBd, splitByte_cons_append _ _ _ (by decide),
      splitByte_not_mem _ _ (fun hm => by rcases mem_chunk_b 38 hm with h|h <;> omega)]
  have hcut : cutByte 61 ([98, 61] ++ bigv) = ([98], bigv) := by
    simp [cutByte]
  rw [parseQuery, hchunks,
    parsePairs_cons_ok _ _ _ [97] [49] (by decide) (by decide) (by decide) (by decide),
    parsePairs_cons_ok _ _ _ [98] bigv
      (fun hm => by rcases mem_chunk_b 59 hm with h|h <;> omega) (by simp)
      (by rw [hcut]; decide)
      (by rw [hcut]; exact queryUnescape_plain bigv bigv_plain),
    parsePairs]
  simp [addValue, c1WitPd]

theorem c1WitPd_get97 : valuesGet c1WitPd [97] = [49] := by
  simp [c1WitPd, valuesGet, lookupVals]

theorem c1WitPd_get98 : valuesGet c1WitPd [98] = bigv := by
  simp [c1WitPd, valuesGet, lookupVals]

theorem c1Wit_hno : ∀ k1 ∈ keyList c1WitPd, 1000 < (valuesGet c1WitPd k1).length →
    ∀ k2 ∈ keyList c1WitPd, ¬ 1000 < (valuesGet c1WitPd k2).length →
      k2 ≠ md5Pre ++ k1 := by
  intro k1 h1 ho1 k2 h2 _
  have h1' : k1 = [97] ∨ k1 = [98] := by simpa [c1WitPd, keyList] using h1
  have h2' : k2 = [97] ∨ k2 = [98] := by simpa [c1WitPd, keyList] using h2
  rcases h1' with rfl | rfl
  · rw [c1WitPd_get97] at ho1
    exact absurd ho1 (by decide)
  · rcases h2' with rfl | rfl
    · exact (by decide : ([97] : Bytes) ≠ md5Pre ++ [98])
    · exact (by decide : ([98] : Bytes) ≠ md5Pre ++ [98])

/-- Witness for C1: on the dump `"H\r\n\r\na=1&b=<1001 bytes>"` the
hypotheses of `c1_redaction_amended` hold for the oversized field `b`, and
its conclusion follows by applying the theorem. -/
theorem c1_redaction_witness :
    splitCRLFCRLF c1WitReq [] = [[72], c1WitBd] ∧
    parseQuery c1WitBd = some c1WitPd ∧
    [98] ∈ keyList c1WitPd ∧
    1000 < (valuesGet c1WitPd [98]).length ∧
    (hashPostRequest md5c true c1WitReq =
      ([72] ++ crlf2 ++ encodeValues (redactFold md5c true c1WitPd).1,
       (redactFold md5c true c1WitPd).2) ∧
    (1000 < (valuesGet c1WitPd [98]).length →
      lookupVals (redactFold md5c true c1WitPd).1 (md5Pre ++ [98]) =
        [md5c (valuesGet c1WitPd [98])] ∧
      (∃ pre post, (hashPostRequest md5c true c1WitReq).1 =
        pre ++ (queryEscape (md5Pre ++ [98]) ++ 61 ::
          queryEscape (md5c (valuesGet c1WitPd [98]))) ++ post) ∧
      (redactFold md5c true c1WitPd).2.filter (fun e => decide (e.field = [98])) =
        [⟨[98], md5c (valuesGet c1WitPd [98]), valuesGet c1WitPd [98]⟩]) ∧
    (¬ 1000 < (valuesGet c1WitPd [98]).length →
      lookupVals (redactFold md5c true c1WitPd).1 [98] = [valuesGet c1WitPd [98]] ∧
      (redactFold md5c true c1WitPd).2.filter (fun e => decide (e.field = [98])) = [])) :=
  ⟨c1Wit_split, c1Wit_parse,
   by simp [c1WitPd, keyList],
   by rw [c1WitPd_get98, bigv_length]; omega,
   c1_redaction_amended md5c c1WitReq [72] c1WitBd c1WitPd [98]
     c1Wit_split c1Wit_parse c1Wit_hno
     (by simp [c1WitPd, keyList])⟩

/-- Counterexample body `"a=<1001 bytes>&md5-a=x"`: the short field is
literally named `md5-a` while field `a` is oversized. -/
def c1CexBd : Bytes := ([97, 61] ++ bigv) ++ 38 :: (md5Pre ++ [97, 61, 120])

/-- Counterexample dump `"H\r\n\r\na=<1001 bytes>&md5-a=x"`. -/
def c1CexReq : Bytes := [72] ++ crlf2 ++ c1CexBd

/-- The parsed form of the counterexample body. -/
def c1CexPd : Values := [([97], [bigv]), (md5Pre ++ [97], [[120]])]

theorem mem_chunk_a (c : Nat) (hc : c ∈ [97, 61] ++ bigv) :
    c = 97 ∨ c = 61 ∨ c = 98 := by
  rcases List.mem_append.1 hc with h | h
  · simp at h; tauto
  · exact Or.inr (Or.inr (bigv_mem c h))

theorem mem_c1CexBd (c : Nat) (hc : c ∈ c1CexBd) :
    c = 97 ∨ c = 61 ∨ c = 98 ∨ c = 38 ∨ c ∈ md5Pre ++ [97, 61, 120] := by
  rw [c1CexBd] at hc
  rcases List.mem_append.1 hc with h | h
  · rcases mem_chunk_a c h with h' | h' | h' <;> tauto
  · rcases List.mem_cons.1 h with h' | h' <;> tauto

theorem c1Cex_split : splitCRLFCRLF c1CexReq [] = [[72], c1CexBd] := by
  show splitCRLFCRLF (72 :: 13 :: 10 :: 13 :: 10 :: c1CexBd) [] = [[72], c1CexBd]
  rw [splitCRLFCRLF.eq_3 [] 72 _ (fun _ hh _ => absurd hh (by decide)),
    splitCRLFCRLF.eq_2,
    splitCRLFCRLF_no13 c1CexBd (fun hm => by
      rcases mem_c1CexBd 13 hm with h|h|h|h|h
      · omega
      · omega
      · omega
      · omega
      · rw [md5Pre] at h; simp at h) []]
  simp

theorem c1Cex_parse : parseQuery c1CexBd = some c1CexPd := by
  have hchunks : splitByte 38 c1CexBd = [[97, 61] ++ bigv, md5Pre ++ [97, 61, 120]] := by
    rw [c1CexBd, splitByte_cons_append _ _ _
        (fun hm => by rcases mem_chunk_a 38 hm with h|h|h <;> omega),
      splitByte_not_mem _ _ (by rw [md5Pre]; decide)]
  have hcut : cutByte 61 ([97, 61] ++ bigv) = ([97], bigv) := by
    simp [cutByte]
  rw [parseQuery, hchunks,
    parsePairs_cons_ok _ _ _ [97] bigv
      (fun hm => by rcases mem_chunk_a 59 hm with h|h|h <;> omega) (by simp)
      (by rw [hcut]; decide)
      (by rw [hcut]; exact queryUnescape_plain bigv bigv_plain),
    parsePairs_cons_ok _ _ _ (md5Pre ++ [97]) [120] (by rw [md5Pre]; decide)
      (by rw [md5Pre]; decide) (by rw [md5Pre]; decide) (by rw [md5Pre]; decide),
    parsePairs]
  simp [addValue, c1CexPd, md5Pre]

theorem c1CexPd_get97 : valuesGet c1CexPd [97] = bigv := by
  simp [c1CexPd, valuesGet, lookupVals]

theorem c1CexPd_getm : valuesGet c1CexPd (md5Pre ++ [97]) = [120] := by
  simp [c1CexPd, valuesGet, lookupVals, md5Pre]

theorem c1Cex_redactFold :
    redactFold md5c true c1CexPd =
      ([(md5Pre ++ [97], [[120]])], [⟨[97], md5c bigv, bigv⟩]) := by
  have hkeys : keyList c1CexPd = [[97], md5Pre ++ [97]] := by
    simp [c1CexPd, keyList]
  have ho : 1000 < (valuesGet c1CexPd [97]).length := by
    rw [c1CexPd_get97, bigv_length]; omega
  have hs : ¬ 1000 < (valuesGet c1CexPd (md5Pre ++ [97])).length := by
    rw [c1CexPd_getm]; decide
  rw [redactFold, hkeys, List.foldl_cons, List.foldl_cons, List.foldl_nil,
    redactStep_eq, redactStep_eq]
  rw [redactKey, if_pos ho, redactValue, if_pos ho, redactSink, if_pos ho, if_pos rfl,
    redactKey, if_neg hs, redactValue, if_neg hs, redactSink, if_neg hs]
  rw [c1CexPd_get97, c1CexPd_getm]
  simp [valuesSet]

/-- Counterexample to C1 as stated: in the dump
`"H\r\n\r\na=<1001 bytes>&md5-a=x"` the field `a` is oversized, yet the
logged dump body is exactly `md5-a=x` — the key `md5-a` ends up bound to
the short field's raw value `x`, not to the hash of `a`'s value, because
the short field named `md5-a` overwrites the replacement pair.  (The sink
entry for `a` is still written.) -/
theorem c1_redaction_cex :
    parseQuery c1CexBd = some c1CexPd ∧
    1000 < (valuesGet c1CexPd [97]).length ∧
    hashPostRequest md5c true c1CexReq =
      ([72] ++ crlf2 ++ (md5Pre ++ [97, 61, 120]), [⟨[97], md5c bigv, bigv⟩]) ∧
    lookupVals (redactFold md5c true c1CexPd).1 (md5Pre ++ [97]) = [[120]] ∧
    md5c (valuesGet c1CexPd [97]) ≠ [120] := by
  have henc : encodeValues [(md5Pre ++ [97], [[120]])] = md5Pre ++ [97, 61, 120] := by
    rw [md5Pre]; decide
  refine ⟨c1Cex_parse, by rw [c1CexPd_get97, bigv_length]; omega, ?_, ?_, ?_⟩
  · simp [hashPostRequest, c1Cex_split, c1Cex_parse, c1Cex_redactFold, henc]
  · rw [c1Cex_redactFold]
    simp [lookupVals]
  · rw [c1CexPd_get97]
    rw [md5c]
    decide

/-- The byte-wise order on byte strings is total. -/
theorem bytesLeB_total (a : Bytes) : ∀ b, bytesLeB a b = true ∨ bytesLeB b a = true := by
  induction a with
  | nil => intro b; left; rfl
  | cons x xs ih =>
    intro b
    cases b with
    | nil => right; rfl
    | cons y ys =>
      rcases Nat.lt_trichotomy x y with h | h | h
      · left; rw [bytesLeB]; simp [h]
      · subst h
        rcases ih ys with hh | hh
        · left; rw [bytesLeB]; simp [lt_irrefl, hh]
        · right; rw [bytesLeB]; simp [lt_irrefl, hh]
      · right; rw [bytesLeB]; simp [h]

/-- The byte-wise order on byte strings is transitive. -/
theorem bytesLeB_trans (a : Bytes) :
    ∀ b c, bytesLeB a b = true → bytesLeB b c = true → bytesLeB a c = true := by
  induction a with
  | nil => intros; rfl
  | cons x xs ih =>
    intro b c hab hbc
    cases b with
    | nil => rw [bytesLeB] at hab; cases hab
    | cons y ys =>
      cases c with
      | nil => rw [bytesLeB] at hbc; cases hbc
      | cons z zs =>
        rw [bytesLeB] at hab hbc ⊢
        split_ifs at hab hbc ⊢
        any_goals rfl
        all_goals try simp at hab
        all_goals try simp at hbc
        all_goals try (exfalso; omega)
        all_goals exact ih ys zs hab hbc

instance : IsTotal Bytes bytesLe := ⟨fun a b => bytesLeB_total a b⟩

instance : IsTrans Bytes bytesLe := ⟨fun a b c => bytesLeB_trans a b c⟩

/-- The small example body `"b=2&a=1"` whose canonical re-encoding swaps
the key order. -/
def c10ExBd : Bytes := [98, 61, 50, 38, 97, 61, 49]

/-- The small example dump `"H\r\n\r\nb=2&a=1"`. -/
def c10ExReq : Bytes := [72] ++ crlf2 ++ c10ExBd

/-- C10 (amended): when the dump splits on the blank line and the body
parses as a form, the logged body is the canonical re-encoding of the
redaction loop's output: the emitted key order is sorted, each field at or
below the threshold whose name is not `md5-k` for any oversized field `k`
(the proviso `c10_canonical_reencode_cex` forces) is bound to exactly its
first input value, values are re-percent-encoded by `encodeValues`, and —
as the concrete `"b=2&a=1"` example shows — the logged body need not be
byte-identical to the original even with no oversized field. -/
theorem c10_canonical_reencode_amended (md5fn : Bytes → Bytes) (req hd bd : Bytes)
    (pd : Values)
    (hsplit : splitCRLFCRLF req [] = [hd, bd])
    (hparse : parseQuery bd = some pd) :
    hashPostRequest md5fn true req =
      (hd ++ crlf2 ++ encodeValues (redactFold md5fn true pd).1,
       (redactFold md5fn true pd).2) ∧
    List.Sorted bytesLe (sortedKeys (redactFold md5fn true pd).1) ∧
    (∀ k ∈ keyList pd, ¬ 1000 < (valuesGet pd k).length →
      (∀ k1 ∈ keyList pd, 1000 < (valuesGet pd k1).length → k ≠ md5Pre ++ k1) →
      lookupVals (redactFold md5fn true pd).1 k = [(lookupVals pd k).headD []]) ∧
    ((hashPostRequest md5c true c10ExReq).1 =
      [72] ++ crlf2 ++ [97, 61, 49, 38, 98, 61, 50] ∧
     (hashPostRequest md5c true c10ExReq).1 ≠ c10ExReq) := by
  refine ⟨by simp [hashPostRequest, hsplit, hparse], ?_, ?_, by decide, by decide⟩
  · rw [sortedKeys]
    exact List.sorted_insertionSort bytesLe _
  · intro k hk ho hguard
    have hrk : redactKey pd k = k := by rw [redactKey, if_neg ho]
    have hinj : ∀ k' ∈ keyList pd, redactKey pd k' = redactKey pd k → k' = k := by
      intro k' hk' heq'
      rw [hrk] at heq'
      by_cases o' : 1000 < (valuesGet pd k').length
      · rw [redactKey, if_pos o'] at heq'
        exact absurd heq'.symm (hguard k' hk' o')
      · rwa [redactKey, if_neg o'] at heq'
    have hlook := lookup_foldl_redactStep md5fn true pd (keyList pd) k hk hinj ([], [])
    rw [hrk, redactValue, if_neg ho] at hlook
    exact hlook

/-- Witness for C10: the dump `"H\r\n\r\nb=2&a=1"` satisfies the
hypotheses, and the theorem applies; its body re-encodes to `"a=1&b=2"`. -/
theorem c10_canonical_reencode_witness :
    splitCRLFCRLF c10ExReq [] = [[72], c10ExBd] ∧
    parseQuery c10ExBd = some [([98], [[50]]), ([97], [[49]])] ∧
    (hashPostRequest md5c true c10ExReq =
      ([72] ++ crlf2 ++
        encodeValues (redactFold md5c true [([98], [[50]]), ([97], [[49]])]).1,
       (redactFold md5c true [([98], [[50]]), ([97], [[49]])]).2) ∧
    List.Sorted bytesLe
      (sortedKeys (redactFold md5c true [([98], [[50]]), ([97], [[49]])]).1) ∧
    (∀ k ∈ keyList [([98], [[50]]), ([97], [[49]])],
      ¬ 1000 < (valuesGet [([98], [[50]]), ([97], [[49]])] k).length →
      (∀ k1 ∈ keyList [([98], [[50]]), ([97], [[49]])],
        1000 < (valuesGet [([98], [[50]]), ([97], [[49]])] k1).length →
          k ≠ md5Pre ++ k1) →
      lookupVals (redactFold md5c true [([98], [[50]]), ([97], [[49]])]).1 k =
        [(lookupVals [([98], [[50]]), ([97], [[49]])] k).headD []]) ∧
    ((hashPostRequest md5c true c10ExReq).1 =
      [72] ++ crlf2 ++ [97, 61, 49, 38, 98, 61, 50] ∧
     (hashPostRequest md5c true c10ExReq).1 ≠ c10ExReq)) :=
  ⟨by decide, by decide,
   c10_canonical_reencode_amended md5c c10ExReq [72] c10ExBd
     [([98], [[50]]), ([97], [[49]])] (by decide) (by decide)⟩

/-- Counterexample body `"md5-a=x&md5-a=y&a=<1001 bytes>"`: the field
`md5-a` carries two values while field `a` is oversized. -/
def c10CexBd : Bytes :=
  (md5Pre ++ [97, 61, 120]) ++ 38 :: ((md5Pre ++ [97, 61, 121]) ++ 38 :: ([97, 61] ++ bigv))

/-- Counterexample dump `"H\r\n\r\nmd5-a=x&md5-a=y&a=<1001 bytes>"`. -/
def c10CexReq : Bytes := [72] ++ crlf2 ++ c10CexBd

/-- The parsed form of the C10 counterexample body. -/
def c10CexPd : Values := [(md5Pre ++ [97], [[120], [121]]), ([97], [bigv])]

theorem c10Cex_split : splitCRLFCRLF c10CexReq [] = [[72], c10CexBd] := by
  show splitCRLFCRLF (72 :: 13 :: 10 :: 13 :: 10 :: c10CexBd) [] = [[72], c10CexBd]
  rw [splitCRLFCRLF.eq_3 [] 72 _ (fun _ hh _ => absurd hh (by decide)),
    splitCRLFCRLF.eq_2,
    splitCRLFCRLF_no13 c10CexBd (fun hm => by
      rw [c10CexBd] at hm
      rcases List.mem_append.1 hm with h | h
      · rw [md5Pre] at h; simp at h
      · rcases List.mem_cons.1 h with h' | h'
        · omega
        · rcases List.mem_append.1 h' with h2 | h2
          · rw [md5Pre] at h2; simp at h2
          · rcases List.mem_cons.1 h2 with h3 | h3
            · omega
            · rcases mem_chunk_a 13 h3 with h4 | h4 | h4 <;> omega) []]
  simp

theorem c10Cex_parse : parseQuery c10CexBd = some c10CexPd := by
  have hchunks : splitByte 38 c10CexBd =
      [md5Pre ++ [97, 61, 120], md5Pre ++ [97, 61, 121], [97, 61] ++ bigv] := by
    rw [c10CexBd, splitByte_cons_append _ _ _ (by rw [md5Pre]; decide),
      splitByte_cons_append _ _ _ (by rw [md5Pre]; decide),
      splitByte_not_mem _ _ (fun hm => by rcases mem_chunk_a 38 hm with h|h|h <;> omega)]
  have hcut : cutByte 61 ([97, 61] ++ bigv) = ([97], bigv) := by
    simp [cutByte]
  rw [parseQuery, hchunks,
    parsePairs_cons_ok _ _ _ (md5Pre ++ [97]) [120] (by rw [md5Pre]; decide)
      (by rw [md5Pre]; decide) (by rw [md5Pre]; decide) (by rw [md5Pre]; decide),
    parsePairs_cons_ok _ _ _ (md5Pre ++ [97]) [121] (by rw [md5Pre]; decide)
      (by rw [md5Pre]; decide) (by rw [md5Pre]; decide) (by rw [md5Pre]; decide),
    parsePairs_cons_ok _ _ _ [97] bigv
      (fun hm => by rcases mem_chunk_a 59 hm with h|h|h <;> omega) (by simp)
      (by rw [hcut]; decide)
      (by rw [hcut]; exact queryUnescape_plain bigv bigv_plain),
    parsePairs]
  simp [addValue, c10CexPd, md5Pre]

theorem c10CexPd_getm : valuesGet c10CexPd (md5Pre ++ [97]) = [120] := by
  simp [c10CexPd, valuesGet, lookupVals]

theorem c10CexPd_get97 : valuesGet c10CexPd [97] = bigv := by
  simp [c10CexPd, valuesGet, lookupVals, md5Pre]

theorem c10Cex_redactFold :
    redactFold md5c true c10CexPd =
      ([(md5Pre ++ [97], [md5c bigv])], [⟨[97], md5c bigv, bigv⟩]) := by
  have hkeys : keyList c10CexPd = [md5Pre ++ [97], [97]] := by
    simp [c10CexPd, keyList]
  have hs : ¬ 1000 < (valuesGet c10CexPd (md5Pre ++ [97])).length := by
    rw [c10CexPd_getm]; decide
  have ho : 1000 < (valuesGet c10CexPd [97]).length := by
    rw [c10CexPd_get97, bigv_length]; omega
  rw [redactFold, hkeys, List.foldl_cons, List.foldl_cons, List.foldl_nil,
    redactStep_eq, redactStep_eq]
  rw [redactKey, if_neg hs, redactValue, if_neg hs, redactSink, if_neg hs,
    redactKey, if_pos ho, redactValue, if_pos ho, redactSink, if_pos ho, if_pos rfl]
  rw [c10CexPd_getm, c10CexPd_get97]
  simp [valuesSet]

/-- Counterexample to C10 as stated: in the dump
`"H\r\n\r\nmd5-a=x&md5-a=y&a=<1001 bytes>"` the field `md5-a` has two
values with first value `x`, yet the logged body binds `md5-a` to the hash
of the oversized field `a` — the multi-valued key does not keep its first
value, because `a`'s replacement pair overwrites it. -/
theorem c10_canonical_reencode_cex :
    parseQuery c10CexBd = some c10CexPd ∧
    lookupVals c10CexPd (md5Pre ++ [97]) = [[120], [121]] ∧
    ¬ 1000 < (valuesGet c10CexPd (md5Pre ++ [97])).length ∧
    lookupVals (redactFold md5c true c10CexPd).1 (md5Pre ++ [97]) = [[72, 65, 83, 72]] ∧
    [[72, 65, 83, 72]] ≠ [([120] : Bytes)] ∧
    (hashPostRequest md5c true c10CexReq).1 =
      [72] ++ crlf2 ++ (md5Pre ++ [97, 61, 72, 65, 83, 72]) := by
  have henc : encodeValues [(md5Pre ++ [97], [md5c bigv])] =
      md5Pre ++ [97, 61, 72, 65, 83, 72] := by
    rw [md5Pre, md5c]; decide
  refine ⟨c10Cex_parse, by simp [c10CexPd, lookupVals], by rw [c10CexPd_getm]; decide,
    ?_, by decide, ?_⟩
  · rw [c10Cex_redactFold]
    simp [lookupVals, md5c]
  · simp [hashPostRequest, c10Cex_split, c10Cex_parse, c10Cex_redactFold, henc]

/-- Embedding of `strconv.ParseBool`: exactly the twelve accepted
literals. -/
def parseBoolGo (s : Bytes) : Option Bool :=
  if s = strBytes "1" ∨ s = strBytes "t" ∨ s = strBytes "T" ∨
     s = strBytes "true" ∨ s = strBytes "TRUE" ∨ s = strBytes "True" then some true
  else if s = strBytes "0" ∨ s = strBytes "f" ∨ s = strBytes "F" ∨
     s = strBytes "false" ∨ s = strBytes "FALSE" ∨ s = strBytes "False" then some false
  else none

/-- Accumulating base-10 digit loop of `strconv.ParseUint`: fails on any
non-digit byte. -/
def digitsVal : Bytes → Nat → Option Nat
  | [], n => some n
  | c :: tl, n =>
    if 48 ≤ c ∧ c ≤ 57 then digitsVal tl (n * 10 + (c - 48)) else none

/-- Embedding of `strconv.ParseUint(s, 10, 64)`: nonempty, digits only
(no sign, no underscore), value below `2^64`. -/
def parseUintGo (s : Bytes) : Option Nat :=
  if s = [] then none
  else
    match digitsVal s 0 with
    | none => none
    | some n => if n < 2 ^ 64 then some n else none

/-- Embedding of `strconv.ParseInt(s, 10, 64)`: optional sign, digits via
`ParseUint`, result within `[-2^63, 2^63)`. -/
def parseIntGo (s : Bytes) : Option Int :=
  match s with
  | [] => none
  | c :: rest =>
    let p := if c = 43 then (false, rest)
             else if c = 45 then (true, rest)
             else (false, s)
    match parseUintGo p.2 with
    | none => none
    | some un =>
      if p.1 then
        if un ≤ 2 ^ 63 then some (-(un : Int)) else none
      else
        if un < 2 ^ 63 then some (un : Int) else none

/-- A typed log-field value, as zerolog's `Bool`/`Int64`/`Uint64`/
`Float64`/`Str` events produce; the float payload type is a parameter
because `strconv.ParseFloat` (IEEE 754) is an external collaborator. -/
inductive FieldVal (F : Type) where
  | bool (b : Bool)
  | int (n : Int)
  | uint (n : Nat)
  | float (x : F)
  | str (s : Bytes)
deriving DecidableEq

/-- The per-request logger's accumulated fields, keyed by field name
(spec §3 sanctions a last-write-wins mapping keyed by field name). -/
abbrev LogCtx (F : Type) := List (Bytes × FieldVal F)

/-- Adding or overwriting one field of the context logger. -/
def ctxSet {F : Type} : LogCtx F → Bytes → FieldVal F → LogCtx F
  | [], k, v => [(k, v)]
  | p :: rest, k, v =>
    if p.1 = k then (k, v) :: rest
    else p :: ctxSet rest k v

/-- Reading one field of the context logger. -/
def ctxGet {F : Type} : LogCtx F → Bytes → Option (FieldVal F)
  | [], _ => none
  | p :: rest, k => if p.1 = k then some p.2 else ctxGet rest k

theorem ctxGet_ctxSet_self {F : Type} (log : LogCtx F) (k : Bytes) (v : FieldVal F) :
    ctxGet (ctxSet log k v) k = some v := by
  induction log with
  | nil => simp [ctxSet, ctxGet]
  | cons p rest ih =>
    by_cases h : p.1 = k
    · simp [ctxSet, h, ctxGet]
    · simp [ctxSet, h, ctxGet, ih]

/-- An HTTP header map (canonicalization of header names is out of scope:
keys are used verbatim). -/
abbrev Headers := List (Bytes × Bytes)

/-- Embedding of `http.Header.Get`: first value, `""` when absent. -/
def hGet : Headers → Bytes → Bytes
  | [], _ => []
  | p :: rest, k => if p.1 = k then p.2 else hGet rest k

/-- Embedding of `http.Header.Set`. -/
def hSet : Headers → Bytes → Bytes → Headers
  | [], k, v => [(k, v)]
  | p :: rest, k, v =>
    if p.1 = k then (k, v) :: rest
    else p :: hSet rest k v

/-- Embedding of `http.Header.Del`. -/
def hDel (hs : Headers) (k : Bytes) : Headers :=
  hs.filter (fun p => decide (p.1 ≠ k))

/-- The switch of `ResponseHeaderHandler` (handler.go): parse the observed
header value with the configured kind, fall back to the raw string on a
parse failure or an unknown kind. -/
def responseHeaderField {F : Type} (parseFloatGo : Bytes → Option F)
    (valType v : Bytes) : FieldVal F :=
  if valType = strBytes "bool" then
    match parseBoolGo v with
    | some b => FieldVal.bool b
    | none => FieldVal.str v
  else if valType = strBytes "float" then
    match parseFloatGo v with
    | some x => FieldVal.float x
    | none => FieldVal.str v
  else if valType = strBytes "int" then
    match parseIntGo v with
    | some n => FieldVal.int n
    | none => FieldVal.str v
  else if valType = strBytes "uint" then
    match parseUintGo v with
    | some n => FieldVal.uint n
    | none => FieldVal.str v
  else if valType = strBytes "str" then FieldVal.str v
  else FieldVal.str v

/-- The post-delegation step of `ResponseHeaderHandler`: read the named
header from the captured `SourceHeader`; when non-empty, log it under the
header's name with the configured kind. -/
def ResponseHeaderHandlerLog {F : Type} (parseFloatGo : Bytes → Option F)
    (headerName valType : Bytes) (respHeaders : Headers) (log : LogCtx F) : LogCtx F :=
  let v := hGet respHeaders headerName
  if v ≠ [] then ctxSet log headerName (responseHeaderField parseFloatGo valType v)
  else log

/-- C8: when the typed response-header stage observes a non-empty header
value with a configured kind among bool/int/uint/float/str, a value that
parses with that kind is logged as the parsed native-typed value, a value
that fails to parse is logged as the raw string under the same field key,
and for every configured kind (indeed for any kind string) the field is
present — never dropped; the embedding is a total function, so a parse
failure cannot fail the request. -/
theorem c8_typed_header {F : Type} (pf : Bytes → Option F) (hdrs : Headers)
    (name v : Bytes) (log : LogCtx F)
    (hv : hGet hdrs name = v) (hne : v ≠ []) :
    (∀ x, pf v = some x →
      ctxGet (ResponseHeaderHandlerLog pf name (strBytes "float") hdrs log) name =
        some (FieldVal.float x)) ∧
    (pf v = none →
      ctxGet (ResponseHeaderHandlerLog pf name (strBytes "float") hdrs log) name =
        some (FieldVal.str v)) ∧
    (∀ n, parseIntGo v = some n →
      ctxGet (ResponseHeaderHandlerLog pf name (strBytes "int") hdrs log) name =
        some (FieldVal.int n)) ∧
    (parseIntGo v = none →
      ctxGet (ResponseHeaderHandlerLog pf name (strBytes "int") hdrs log) name =
        some (FieldVal.str v)) ∧
    (∀ b, parseBoolGo v = some b →
      ctxGet (ResponseHeaderHandlerLog pf name (strBytes "bool") hdrs log) name =
        some (FieldVal.bool b)) ∧
    (parseBoolGo v = none →
      ctxGet (ResponseHeaderHandlerLog pf name (strBytes "bool") hdrs log) name =
        some (FieldVal.str v)) ∧
    (∀ n, parseUintGo v = some n →
      ctxGet (ResponseHeaderHandlerLog pf name (strBytes "uint") hdrs log) name =
        some (FieldVal.uint n)) ∧
    (parseUintGo v = none →
      ctxGet (ResponseHeaderHandlerLog pf name (strBytes "uint") hdrs log) name =
        some (FieldVal.str v)) ∧
    (ctxGet (ResponseHeaderHandlerLog pf name (strBytes "str") hdrs log) name =
      some (FieldVal.str v)) ∧
    (∀ valType, ∃ fv,
      ctxGet (ResponseHeaderHandlerLog pf name valType hdrs log) name = some fv) := by
  have hbase : ∀ t : Bytes, ResponseHeaderHandlerLog pf name t hdrs log =
      ctxSet log name (responseHeaderField pf t v) := by
    intro t
    rw [ResponseHeaderHandlerLog, hv, if_pos hne]
  have hflt : responseHeaderField pf (strBytes "float") v =
      (match pf v with
       | some x => FieldVal.float x
       | none => FieldVal.str v) := by
    rw [responseHeaderField, if_neg (by decide), if_pos rfl]
  have hint : responseHeaderField pf (strBytes "int") v =
      (match parseIntGo v with
       | some n => FieldVal.int n
       | none => FieldVal.str v) := by
    rw [responseHeaderField, if_neg (by decide), if_neg (by decide), if_pos rfl]
  have hbol : responseHeaderField pf (strBytes "bool") v =
      (match parseBoolGo v with
       | some b => FieldVal.bool b
       | none => FieldVal.str v) := by
    rw [responseHeaderField, if_pos rfl]
  have huin : responseHeaderField pf (strBytes "uint") v =
      (match parseUintGo v with
       | some n => FieldVal.uint n
       | none => FieldVal.str v) := by
    rw [responseHeaderField, if_neg (by decide), if_neg (by decide),
      if_neg (by decide), if_pos rfl]
  have hstr : responseHeaderField pf (strBytes "str") v = FieldVal.str v := by
    rw [responseHeaderField, if_neg (by decide), if_neg (by decide),
      if_neg (by decide), if_neg (by decide), if_pos rfl]
  refine ⟨fun x hx => ?_, fun hx => ?_, fun n hn => ?_, fun hn => ?_,
    fun b hb => ?_, fun hb => ?_, fun n hn => ?_, fun hn => ?_, ?_, fun t => ?_⟩
  · rw [hbase, ctxGet_ctxSet_self, hflt, hx]
  · rw [hbase, ctxGet_ctxSet_self, hflt, hx]
  · rw [hbase, ctxGet_ctxSet_self, hint, hn]
  · rw [hbase, ctxGet_ctxSet_self, hint, hn]
  · rw [hbase, ctxGet_ctxSet_self, hbol, hb]
  · rw [hbase, ctxGet_ctxSet_self, hbol, hb]
  · rw [hbase, ctxGet_ctxSet_self, huin, hn]
  · rw [hbase, ctxGet_ctxSet_self, huin, hn]
  · rw [hbase, ctxGet_ctxSet_self, hstr]
  · rw [hbase, ctxGet_ctxSet_self]
    exact ⟨_, rfl⟩

/-- Concrete response headers `Cost: 3.14` for the C8 witness. -/
def c8Hdrs : Headers := [([67, 111, 115, 116], [51, 46, 49, 52])]

/-- A concrete stand-in for `strconv.ParseFloat` on the witness input:
exact decimal `3.14` represented as the pair `(314, 100)`. -/
def pfQ : Bytes → Option (Nat × Nat) :=
  fun s => if s = [51, 46, 49, 52] then some (314, 100) else none

/-- Witness for C8: header `Cost: 3.14` with a float parse that succeeds
(kind float logs the parsed value; kinds int/uint/bool fail on `"3.14"` and
fall back to the raw string). -/
theorem c8_typed_header_witness :
    hGet c8Hdrs [67, 111, 115, 116] = [51, 46, 49, 52] ∧
    ([51, 46, 49, 52] : Bytes) ≠ [] ∧
    ((∀ x, pfQ [51, 46, 49, 52] = some x →
      ctxGet (ResponseHeaderHandlerLog pfQ [67, 111, 115, 116] (strBytes "float") c8Hdrs [])
          [67, 111, 115, 116] = some (FieldVal.float x)) ∧
    (pfQ [51, 46, 49, 52] = none →
      ctxGet (ResponseHeaderHandlerLog pfQ [67, 111, 115, 116] (strBytes "float") c8Hdrs [])
          [67, 111, 115, 116] = some (FieldVal.str [51, 46, 49, 52])) ∧
    (∀ n, parseIntGo [51, 46, 49, 52] = some n →
      ctxGet (ResponseHeaderHandlerLog pfQ [67, 111, 115, 116] (strBytes "int") c8Hdrs [])
          [67, 111, 115, 116] = some (FieldVal.int n)) ∧
    (parseIntGo [51, 46, 49, 52] = none →
      ctxGet (ResponseHeaderHandlerLog pfQ [67, 111, 115, 116] (strBytes "int") c8Hdrs [])
          [67, 111, 115, 116] = some (FieldVal.str [51, 46, 49, 52])) ∧
    (∀ b, parseBoolGo [51, 46, 49, 52] = some b →
      ctxGet (ResponseHeaderHandlerLog pfQ [67, 111, 115, 116] (strBytes "bool") c8Hdrs [])
          [67, 111, 115, 116] = some (FieldVal.bool b)) ∧
    (parseBoolGo [51, 46, 49, 52] = none →
      ctxGet (ResponseHeaderHandlerLog pfQ [67, 111, 115, 116] (strBytes "bool") c8Hdrs [])
          [67, 111, 115, 116] = some (FieldVal.str [51, 46, 49, 52])) ∧
    (∀ n, parseUintGo [51, 46, 49, 52] = some n →
      ctxGet (ResponseHeaderHandlerLog pfQ [67, 111, 115, 116] (strBytes "uint") c8Hdrs [])
          [67, 111, 115, 116] = some (FieldVal.uint n)) ∧
    (parseUintGo [51, 46, 49, 52] = none →
      ctxGet (ResponseHeaderHandlerLog pfQ [67, 111, 115, 116] (strBytes "uint") c8Hdrs [])
          [67, 111, 115, 116] = some (FieldVal.str [51, 46, 49, 52])) ∧
    (ctxGet (ResponseHeaderHandlerLog pfQ [67, 111, 115, 116] (strBytes "str") c8Hdrs [])
      [67, 111, 115, 116] = some (FieldVal.str [51, 46, 49, 52])) ∧
    (∀ valType, ∃ fv,
      ctxGet (ResponseHeaderHandlerLog pfQ [67, 111, 115, 116] valType c8Hdrs [])
        [67, 111, 115, 116] = some fv)) :=
  ⟨by decide, by decide,
   c8_typed_header pfQ c8Hdrs [67, 111, 115, 116] [51, 46, 49, 52] []
     (by decide) (by decide)⟩

/-- An HTTP request, reduced to its header map (the only part
`RequestIDHandler` touches). -/
structure Request where
  headers : Headers
deriving DecidableEq

/-- The state a handler threads: the inbound request, the response
writer's header map (what `w.Header()` exposes and is delivered to the
client), and the per-request context logger. -/
structure ReqState (F : Type) where
  req : Request
  respHeaders : Headers
  log : LogCtx F
deriving DecidableEq

/-- Embedding of `RequestIDHandler` (handler.go): resolve the id from the
named inbound header via `xid.FromString` (the parameter `fromString`),
generating `fresh` (`xid.New()`) on a parse error; add it to the logger
under `fieldKey` when that key is non-empty; then — exactly as the code is
written — store it with `r.Header.Set` on the inbound request's header map
when `headerName` is non-empty, and delegate. -/
def RequestIDHandler {F : Type} (fromString : Bytes → Option Bytes) (fresh : Bytes)
    (fieldKey headerName : Bytes) (next : ReqState F → ReqState F)
    (s : ReqState F) : ReqState F :=
  let id := match fromString (hGet s.req.headers headerName) with
            | some i => i
            | none => fresh
  let s1 := if fieldKey ≠ [] then
      { s with log := ctxSet s.log fieldKey (FieldVal.str id) }
    else s
  let s2 := if headerName ≠ [] then
      { s1 with req := ⟨hSet s1.req.headers headerName id⟩ }
    else s1
  next s2

/-- C5, evaluated at the failing input: a request with no valid inbound
`Request-Id`, field key `req_id` and header name `Request-Id` both
non-empty, and an identity continuation.  A fresh id is generated and
logged under `req_id` (those parts of the claim hold), but the response
writer's header map stays empty: the id is written onto the inbound
request's header map (`r.Header.Set`), never onto an outbound header
delivered to the client — contradicting the handler's own doc comment
("The id is also added as a response header") and the claim. -/
theorem c5_request_id_bug :
    RequestIDHandler (F := Unit) (fun _ => none) [88, 73, 68]
        (strBytes "req_id") (strBytes "Request-Id") (fun s => s)
        ⟨⟨[]⟩, [], []⟩ =
      ⟨⟨[(strBytes "Request-Id", [88, 73, 68])]⟩, [],
       [(strBytes "req_id", FieldVal.str [88, 73, 68])]⟩ ∧
    (RequestIDHandler (F := Unit) (fun _ => none) [88, 73, 68]
        (strBytes "req_id") (strBytes "Request-Id") (fun s => s)
        ⟨⟨[]⟩, [], []⟩).respHeaders = [] ∧
    strBytes "Request-Id" ≠ ([] : Bytes) := by
  refine ⟨?_, ?_, by decide⟩ <;> decide

/-- Modelled from the spec: the real response writer behind the proxy
(writer.go is not under src/).  It records what the client actually
receives: the header map sent at flush time, the status, and the body
bytes (§2 ResponseCapture, §4.4). -/
structure RealWriter where
  sentHeaders : Option Headers
  status : Option Nat
  written : Bytes
deriving DecidableEq

/-- Modelled from the spec: writer.go's `respProxyWriter` state (§3
ResponseCapture, §4.4): the wrapped real writer, the staged header map
(`SourceHeader`), the names registered for deletion by `delHeader`, the
recorded status code (`Code`: first `WriteHeader` wins, implicitly 200),
and the captured body (`Body`). -/
structure RespProxy where
  real : RealWriter
  headers : Headers
  deleted : List Bytes
  code : Option Nat
  body : Bytes
deriving DecidableEq

/-- Modelled from the spec: constructing the proxy around a bare writer. -/
def initProxy (w : RealWriter) : RespProxy := ⟨w, [], [], none, []⟩

/-- Modelled from the spec (§3): header deletions performed on the capture
are applied to the real writer's headers before they are sent; flushing
delivers the staged headers minus the deleted names, exactly once. -/
def flushHeaders (p : RespProxy) : RespProxy :=
  match p.real.sentHeaders with
  | some _ => p
  | none =>
    let client := p.headers.filter (fun kv => decide (kv.1 ∉ p.deleted))
    { p with real := { p.real with sentHeaders := some client } }

/-- Modelled from the spec (§4.4): `WriteHeader` records the code exactly
once (first call wins) and forwards to the real writer, whose own first
status wins as in net/http; headers flush first. -/
def RespProxy.writeHeader (p0 : RespProxy) (c : Nat) : RespProxy :=
  let p := flushHeaders p0
  { p with code := some (p.code.getD c),
           real := { p.real with status := some (p.real.status.getD c) } }

/-- Modelled from the spec (§4.4): `Write` appends to the internal buffer
and forwards unchanged to the real writer; headers flush on first write as
in net/http. -/
def RespProxy.write (p0 : RespProxy) (bs : Bytes) : RespProxy :=
  let p := flushHeaders p0
  { p with body := p.body ++ bs,
           real := { p.real with written := p.real.written ++ bs } }

/-- A downstream handler setting a response header through the proxy's
header map. -/
def RespProxy.setHeader (p : RespProxy) (k v : Bytes) : RespProxy :=
  { p with headers := hSet p.headers k v }

/-- Modelled from the spec (§4.4, used by `DelResponseHeaderHandler`):
`delHeader` removes the entry from the staged map and registers the name
so that it can never reach the client. -/
def RespProxy.delHeader (p : RespProxy) (k : Bytes) : RespProxy :=
  { p with headers := hDel p.headers k, deleted := k :: p.deleted }

/-- The recorded status (§3): the first `WriteHeader` argument, implicitly
200 when `WriteHeader` was never called. -/
def RespProxy.statusCode (p : RespProxy) : Nat := p.code.getD 200

/-- The operations a downstream handler can perform on the proxy. -/
inductive WOp where
  | write (bs : Bytes)
  | writeHeader (c : Nat)
  | setHeader (k v : Bytes)
  | delHeader (k : Bytes)
deriving DecidableEq

/-- Running one proxy operation. -/
def applyOp (p : RespProxy) : WOp → RespProxy
  | WOp.write bs => p.write bs
  | WOp.writeHeader c => p.writeHeader c
  | WOp.setHeader k v => p.setHeader k v
  | WOp.delHeader k => p.delHeader k

/-- Running a request's sequence of proxy operations. -/
def runOps (p : RespProxy) (ops : List WOp) : RespProxy := ops.foldl applyOp p

/-- The concatenation of the byte slices passed to `Write`, in order. -/
def writesOf (ops : List WOp) : Bytes :=
  ops.flatMap (fun o => match o with | WOp.write bs => bs | _ => [])

/-- The argument of the first `WriteHeader` call, if any. -/
def firstWriteHeader (ops : List WOp) : Option Nat :=
  (ops.filterMap (fun o => match o with | WOp.writeHeader c => some c | _ => none)).head?

/-- A fresh writer at the start of a request: nothing sent yet. -/
def freshWriter : RealWriter := ⟨none, none, []⟩

theorem flushHeaders_body (p : RespProxy) : (flushHeaders p).body = p.body := by
  rw [flushHeaders]; cases p.real.sentHeaders <;> rfl

theorem flushHeaders_written (p : RespProxy) :
    (flushHeaders p).real.written = p.real.written := by
  rw [flushHeaders]; cases p.real.sentHeaders <;> rfl

theorem flushHeaders_code (p : RespProxy) : (flushHeaders p).code = p.code := by
  rw [flushHeaders]; cases p.real.sentHeaders <;> rfl

theorem runOps_body (ops : List WOp) :
    ∀ p, (runOps p ops).body = p.body ++ writesOf ops := by
  induction ops with
  | nil => intro p; simp [runOps, writesOf]
  | cons o rest ih =>
    intro p
    rw [runOps, List.foldl_cons, ← runOps, ih]
    cases o <;>
      simp [applyOp, RespProxy.write, RespProxy.writeHeader, RespProxy.setHeader,
        RespProxy.delHeader, flushHeaders_body, writesOf]

theorem runOps_written (ops : List WOp) :
    ∀ p, (runOps p ops).real.written = p.real.written ++ writesOf ops := by
  induction ops with
  | nil => intro p; simp [runOps, writesOf]
  | cons o rest ih =>
    intro p
    rw [runOps, List.foldl_cons, ← runOps, ih]
    cases o <;>
      simp [applyOp, RespProxy.write, RespProxy.writeHeader, RespProxy.setHeader,
        RespProxy.delHeader, flushHeaders_written, writesOf]

theorem runOps_code (ops : List WOp) :
    ∀ p, (runOps p ops).code = p.code.or (firstWriteHeader ops) := by
  induction ops with
  | nil => intro p; simp [runOps, firstWriteHeader]
  | cons o rest ih =>
    intro p
    rw [runOps, List.foldl_cons, ← runOps, ih]
    cases o with
    | writeHeader c =>
      have : (applyOp p (WOp.writeHeader c)).code = some (p.code.getD c) := by
        simp [applyOp, RespProxy.writeHeader, flushHeaders_code]
      rw [this]
      cases p.code <;> simp [firstWriteHeader]
    | write bs =>
      have : (applyOp p (WOp.write bs)).code = p.code := by
        simp [applyOp, RespProxy.write, flushHeaders_code]
      rw [this]
      simp [firstWriteHeader]
    | setHeader k v =>
      simp [applyOp, RespProxy.setHeader, firstWriteHeader]
    | delHeader k =>
      simp [applyOp, RespProxy.delHeader, firstWriteHeader]

/-- C2: over any sequence of proxy operations on a fresh request, the
captured body is the concatenation of the `Write` payloads in order and
equals byte-for-byte what the real underlying writer received, and exactly
one status code is recorded: the first `WriteHeader` argument, or 200 when
`WriteHeader` is never called. -/
theorem c2_response_capture (ops : List WOp) :
    (runOps (initProxy freshWriter) ops).body = writesOf ops ∧
    (runOps (initProxy freshWriter) ops).real.written = writesOf ops ∧
    (runOps (initProxy freshWriter) ops).statusCode =
      (firstWriteHeader ops).getD 200 := by
  refine ⟨?_, ?_, ?_⟩
  · rw [runOps_body]; rfl
  · rw [runOps_written]; rfl
  · rw [RespProxy.statusCode, runOps_code]
    rfl

/-- A header name registered as deleted never survives the flush filter. -/
theorem hGet_filter_deleted (hs : Headers) (dels : List Bytes) (n : Bytes)
    (hn : n ∈ dels) :
    hGet (hs.filter (fun kv => decide (kv.1 ∉ dels))) n = [] := by
  induction hs with
  | nil => rfl
  | cons p rest ih =>
    rw [List.filter_cons]
    by_cases hp : p.1 ∈ dels
    · rw [if_neg (by simp [hp])]
      exact ih
    · have hne : p.1 ≠ n := fun hh => hp (hh ▸ hn)
      rw [if_pos (by simp [hp]), hGet, if_neg hne]
      exact ih

/-- The safety invariant for C4: the name is registered as deleted and any
headers already sent do not contain it. -/
def DelSafe (n : Bytes) (p : RespProxy) : Prop :=
  n ∈ p.deleted ∧ ∀ h', p.real.sentHeaders = some h' → hGet h' n = []

theorem flushHeaders_of_some (p : RespProxy) (hs : Headers)
    (h : p.real.sentHeaders = some hs) : flushHeaders p = p := by
  rw [flushHeaders, h]

theorem flushHeaders_of_none (p : RespProxy) (h : p.real.sentHeaders = none) :
    (flushHeaders p).real.sentHeaders =
      some (p.headers.filter (fun kv => decide (kv.1 ∉ p.deleted))) ∧
    (flushHeaders p).deleted = p.deleted := by
  rw [flushHeaders, h]
  exact ⟨rfl, rfl⟩

theorem delSafe_flushHeaders (n : Bytes) (p : RespProxy) (h : DelSafe n p) :
    DelSafe n (flushHeaders p) := by
  rcases hsh : p.real.sentHeaders with _ | hs
  · obtain ⟨h1, h2⟩ := flushHeaders_of_none p hsh
    refine ⟨h2 ▸ h.1, fun h' hh' => ?_⟩
    rw [h1] at hh'
    cases hh'
    exact hGet_filter_deleted p.headers p.deleted n h.1
  · rw [flushHeaders_of_some p hs hsh]
    exact h

theorem delSafe_applyOp (n : Bytes) (p : RespProxy) (o : WOp) (h : DelSafe n p) :
    DelSafe n (applyOp p o) := by
  have hflush := delSafe_flushHeaders n p h
  cases o with
  | write bs =>
    exact ⟨hflush.1, fun h' hh' => hflush.2 h' hh'⟩
  | writeHeader c =>
    exact ⟨hflush.1, fun h' hh' => hflush.2 h' hh'⟩
  | setHeader k v =>
    exact ⟨h.1, fun h' hh' => h.2 h' hh'⟩
  | delHeader k =>
    exact ⟨List.mem_cons_of_mem _ h.1, fun h' hh' => h.2 h' hh'⟩

theorem delSafe_runOps (n : Bytes) (ops : List WOp) :
    ∀ p, DelSafe n p → DelSafe n (runOps p ops) := by
  induction ops with
  | nil => intro p h; exact h
  | cons o rest ih =>
    intro p h
    rw [runOps, List.foldl_cons, ← runOps]
    exact ih _ (delSafe_applyOp n p o h)

/-- C4: if the header-deletion stage deletes a response header through the
proxy before anything has been flushed, then whatever operations any
downstream handler performs — including setting that very header — the
header map delivered to the real client never contains that header. -/
theorem c4_header_deletion (p : RespProxy) (n : Bytes) (ops : List WOp)
    (hsent : p.real.sentHeaders = none) :
    ∀ h', (runOps (p.delHeader n) ops).real.sentHeaders = some h' →
      hGet h' n = [] := by
  have h0 : DelSafe n (p.delHeader n) :=
    ⟨by simp [RespProxy.delHeader],
     fun h' hh' => by rw [RespProxy.delHeader] at hh'; simp only at hh'; rw [hsent] at hh'; cases hh'⟩
  exact (delSafe_runOps n ops _ h0).2

/-- Witness for C4: deleting `Cost` on a fresh proxy, then a downstream
handler sets `Cost: 1` and writes the body; the flushed client headers are
empty and contain no `Cost`. -/
theorem c4_header_deletion_witness :
    (initProxy freshWriter).real.sentHeaders = none ∧
    (runOps ((initProxy freshWriter).delHeader [67, 111, 115, 116])
      [WOp.setHeader [67, 111, 115, 116] [49], WOp.write [104, 105]]).real.sentHeaders =
        some [] ∧
    hGet [] [67, 111, 115, 116] = [] :=
  ⟨rfl, by decide,
   c4_header_deletion (initProxy freshWriter) [67, 111, 115, 116]
     [WOp.setHeader [67, 111, 115, 116] [49], WOp.write [104, 105]] rfl [] (by decide)⟩

/-- A response writer is either the bare real writer or an existing
proxy. -/
inductive HTTPWriter where
  | base (w : RealWriter)
  | proxied (p : RespProxy)
deriving DecidableEq

/-- Modelled from the spec (§4.4): `NewRespProxyWriter` wraps a bare
writer in a fresh proxy, and returns an already-proxied writer as-is
rather than double-buffering. -/
def NewRespProxyWriter : HTTPWriter → HTTPWriter
  | HTTPWriter.base w => HTTPWriter.proxied (initProxy w)
  | HTTPWriter.proxied p => HTTPWriter.proxied p

/-- C6: wrapping is idempotent — re-wrapping an already-proxied writer
returns the existing proxy (same captured state), so the several stages
that each construct their own proxy around the same writer observe one
shared capture. -/
theorem c6_wrap_idempotent :
    (∀ w : HTTPWriter, NewRespProxyWriter (NewRespProxyWriter w) = NewRespProxyWriter w) ∧
    (∀ p : RespProxy, NewRespProxyWriter (HTTPWriter.proxied p) = HTTPWriter.proxied p) := by
  constructor
  · intro w; cases w <;> rfl
  · intro p; rfl

/-- Modelled from the spec (§3, §4.1): a Chain is an ordered sequence of
stages, each of shape `(next Handler) → Handler` (chain.go is not under
src/). -/
structure Chain (H : Type) where
  stages : List (H → H)

/-- Modelled from the spec: the empty chain (`NewChain`). -/
def NewChain {H : Type} : Chain H := ⟨[]⟩

/-- Modelled from the spec (§4.1): `Append` returns a new Chain with the
stage appended at the tail. -/
def Chain.Append {H : Type} (c : Chain H) (s : H → H) : Chain H :=
  ⟨c.stages ++ [s]⟩

/-- Modelled from the spec (§4.1): `Then(finalHandler)` is stage₁'s wrapper
around (stage₂'s wrapper around (… around the final handler)). -/
def Chain.Then {H : Type} (c : Chain H) (h : H) : H :=
  c.stages.foldr (fun s a => s a) h

/-- A handler instrumented for observing execution order: it maps an input
to the list of events it performs.  `(i, true)` is stage `i`'s
pre-delegation work, `(i, false)` its post-delegation work. -/
abbrev TraceHandler := Nat → List (Nat × Bool)

/-- A stage that performs pre-delegation work, delegates, then performs
post-delegation work — the shape of every stage in handler.go. -/
def mkStage (i : Nat) : TraceHandler → TraceHandler :=
  fun next x => (i, true) :: (next x ++ [(i, false)])

/-- The chain built by successive `Append` calls of the traced stages. -/
def chainOf (l : List Nat) : Chain TraceHandler :=
  (l.map mkStage).foldl Chain.Append NewChain

theorem stages_foldl_append {H : Type} (ss : List (H → H)) :
    ∀ c : Chain H, (ss.foldl Chain.Append c).stages = c.stages ++ ss := by
  induction ss with
  | nil => intro c; simp
  | cons s rest ih =>
    intro c
    rw [List.foldl_cons, ih]
    simp [Chain.Append]

/-- C3: a chain built by appending stages s₁…sₙ composes them as nested
scopes — `Then h = s₁ (s₂ (… (sₙ h)))`; the empty chain's `Then` is the
identity; and on the traced handlers, pre-delegation work runs in
registration order while post-delegation work runs in reverse order. -/
theorem c3_chain_composition :
    (∀ (H : Type) (ss : List (H → H)) (h : H),
      (ss.foldl Chain.Append NewChain).Then h = ss.foldr (fun s a => s a) h) ∧
    (∀ (H : Type) (h : H), (NewChain (H := H)).Then h = h) ∧
    (∀ (l : List Nat) (hnd : TraceHandler) (x : Nat),
      (chainOf l).Then hnd x =
        l.map (fun i => (i, true)) ++ hnd x ++ l.reverse.map (fun i => (i, false))) := by
  have hthen : ∀ (H : Type) (ss : List (H → H)) (h : H),
      (ss.foldl Chain.Append NewChain).Then h = ss.foldr (fun s a => s a) h := by
    intro H ss h
    rw [Chain.Then, stages_foldl_append]
    rfl
  refine ⟨hthen, fun H h => rfl, ?_⟩
  intro l
  induction l with
  | nil => intro hnd x; simp [chainOf, NewChain, Chain.Then]
  | cons i tl ih =>
    intro hnd x
    rw [chainOf, List.map_cons, hthen, List.foldr_cons]
    have htl : (tl.map mkStage).foldr (fun s a => s a) hnd x =
        tl.map (fun j => (j, true)) ++ hnd x ++ tl.reverse.map (fun j => (j, false)) := by
      rw [← hthen TraceHandler (tl.map mkStage) hnd]
      exact ih hnd x
    rw [mkStage, htl]
    simp

/-- One request-processing action on the per-request logger, as the
handlers perform them: `install` is `NewHandler`'s copy of the shared base
logger into the request's context; `update` is a stage's `UpdateContext`
on the request's own logger; `emit` is a stage logging an event with the
request's logger. -/
inductive RAction (F : Type) where
  | install
  | update (f : LogCtx F → LogCtx F)
  | emit

/-- The shared state of two in-flight requests: the process-wide base
logger built once under `once.Do`, each request's context logger, and each
request's emitted records. -/
structure TwoReqState (F : Type) where
  base : LogCtx F
  slot1 : Option (LogCtx F)
  slot2 : Option (LogCtx F)
  out1 : List (LogCtx F)
  out2 : List (LogCtx F)

/-- The process state when two requests begin. -/
def initTwo {F : Type} (base : LogCtx F) : TwoReqState F :=
  ⟨base, none, none, [], []⟩

/-- Request 1 performs one action.  `install` reads the base logger and
copies it (`l := log.With().Logger()`); no action writes the base. -/
def doAction1 {F : Type} (s : TwoReqState F) : RAction F → TwoReqState F
  | RAction.install => { s with slot1 := some s.base }
  | RAction.update f => { s with slot1 := s.slot1.map f }
  | RAction.emit => { s with out1 := s.out1 ++ [s.slot1.getD []] }

/-- Request 2 performs one action, symmetrically. -/
def doAction2 {F : Type} (s : TwoReqState F) : RAction F → TwoReqState F
  | RAction.install => { s with slot2 := some s.base }
  | RAction.update f => { s with slot2 := s.slot2.map f }
  | RAction.emit => { s with out2 := s.out2 ++ [s.slot2.getD []] }

/-- An interleaved run of two requests under a schedule: `true` steps
request 1, `false` steps request 2; a finished request's steps are
no-ops. -/
def runTwo {F : Type} : List Bool → List (RAction F) → List (RAction F) →
    TwoReqState F → TwoReqState F
  | [], _, _, s => s
  | true :: sch, p1, p2, s =>
    match p1 with
    | [] => runTwo sch [] p2 s
    | a :: p1' => runTwo sch p1' p2 (doAction1 s a)
  | false :: sch, p1, p2, s =>
    match p2 with
    | [] => runTwo sch p1 [] s
    | a :: p2' => runTwo sch p1 p2' (doAction2 s a)

theorem doAction1_base {F : Type} (s : TwoReqState F) (a : RAction F) :
    (doAction1 s a).base = s.base := by cases a <;> rfl

theorem doAction1_slot2 {F : Type} (s : TwoReqState F) (a : RAction F) :
    (doAction1 s a).slot2 = s.slot2 := by cases a <;> rfl

theorem doAction1_out2 {F : Type} (s : TwoReqState F) (a : RAction F) :
    (doAction1 s a).out2 = s.out2 := by cases a <;> rfl

theorem doAction2_base {F : Type} (s : TwoReqState F) (a : RAction F) :
    (doAction2 s a).base = s.base := by cases a <;> rfl

theorem doAction2_congr {F : Type} (s s' : TwoReqState F) (a : RAction F)
    (hb : s.base = s'.base) (hs : s.slot2 = s'.slot2) (ho : s.out2 = s'.out2) :
    (doAction2 s a).base = (doAction2 s' a).base ∧
    (doAction2 s a).slot2 = (doAction2 s' a).slot2 ∧
    (doAction2 s a).out2 = (doAction2 s' a).out2 := by
  cases a <;> simp [doAction2, hb, hs, ho]

/-- The request-2-visible components evolve independently of request 1's
actions. -/
theorem runTwo_agree {F : Type} (sch : List Bool) :
    ∀ (p1 p1' p2 : List (RAction F)) (s s' : TwoReqState F),
      s.base = s'.base → s.slot2 = s'.slot2 → s.out2 = s'.out2 →
      (runTwo sch p1 p2 s).base = (runTwo sch p1' p2 s').base ∧
      (runTwo sch p1 p2 s).slot2 = (runTwo sch p1' p2 s').slot2 ∧
      (runTwo sch p1 p2 s).out2 = (runTwo sch p1' p2 s').out2 := by
  induction sch with
  | nil => intro p1 p1' p2 s s' hb hs ho; exact ⟨hb, hs, ho⟩
  | cons b sch ih =>
    intro p1 p1' p2 s s' hb hs ho
    cases b
    · cases p2 with
      | nil => exact ih p1 p1' [] s s' hb hs ho
      | cons a p2' =>
        obtain ⟨hb', hs', ho'⟩ := doAction2_congr s s' a hb hs ho
        exact ih p1 p1' p2' (doAction2 s a) (doAction2 s' a) hb' hs' ho'
    · have step : ∀ (q : List (RAction F)) (t : TwoReqState F),
          ∃ t' q', runTwo (true :: sch) q p2 t = runTwo sch q' p2 t' ∧
            t'.base = t.base ∧ t'.slot2 = t.slot2 ∧ t'.out2 = t.out2 := by
        intro q t
        cases q with
        | nil => exact ⟨t, [], rfl, rfl, rfl, rfl⟩
        | cons a q' =>
          exact ⟨doAction1 t a, q', rfl, doAction1_base t a, doAction1_slot2 t a,
            doAction1_out2 t a⟩
      obtain ⟨t1, q1, he1, hb1, hs1, ho1⟩ := step p1 s
      obtain ⟨t2, q2, he2, hb2, hs2, ho2⟩ := step p1' s'
      rw [he1, he2]
      exact ih q1 q2 p2 t1 t2 (by rw [hb1, hb2, hb]) (by rw [hs1, hs2, hs])
        (by rw [ho1, ho2, ho])

theorem runTwo_base {F : Type} (sch : List Bool) :
    ∀ (p1 p2 : List (RAction F)) (s : TwoReqState F),
      (runTwo sch p1 p2 s).base = s.base := by
  induction sch with
  | nil => intro p1 p2 s; rfl
  | cons b sch ih =>
    intro p1 p2 s
    cases b
    · cases p2 with
      | nil => exact ih p1 [] s
      | cons a p2' => rw [runTwo]; exact (ih p1 p2' _).trans (doAction2_base s a)
    · cases p1 with
      | nil => exact ih [] p2 s
      | cons a p1' => rw [runTwo]; exact (ih p1' p2 _).trans (doAction1_base s a)

/-- C9: for any interleaving of two requests through the chain, request 2's
emitted records (and its live logger) are identical no matter what field
mutations request 1 performs — `NewHandler` installs a copy of the shared
base logger per request, updates touch only the request's own copy, and no
action ever mutates the base logger after initialization. -/
theorem c9_logger_isolation {F : Type} (sch : List Bool)
    (p1 p1' p2 : List (RAction F)) (base : LogCtx F) :
    (runTwo sch p1 p2 (initTwo base)).out2 = (runTwo sch p1' p2 (initTwo base)).out2 ∧
    (runTwo sch p1 p2 (initTwo base)).slot2 = (runTwo sch p1' p2 (initTwo base)).slot2 ∧
    (runTwo sch p1 p2 (initTwo base)).base = base := by
  obtain ⟨hb, hs, ho⟩ := runTwo_agree sch p1 p1' p2 (initTwo base) (initTwo base) rfl rfl rfl
  exact ⟨ho, hs, runTwo_base sch p1 p2 (initTwo base)⟩

end Zlog
